import Mathlib

/-!
Verification of the locale-maintenance scripts `align.py` and `check_keys.py`.

A locale document is a JSON-shaped tree: mappings (insertion-ordered, string
keys), lists, and scalar leaves (strings, numbers, booleans, null).  Mappings
are modelled as association lists `List (String × Json)`; a document parsed
from JSON has no duplicate keys at any mapping node, which the predicate `wf`
captures.
-/

set_option autoImplicit false

namespace Ephemera

/-- JSON-shaped document trees: the data model of both scripts. -/
inductive Json where
  | str : String → Json
  | num : Int → Json
  | bool : Bool → Json
  | null : Json
  | arr : List Json → Json
  | obj : List (String × Json) → Json

/-- The keys of a mapping node, in insertion order (Python `d.keys()`). -/
def getKeys (l : List (String × Json)) : List String :=
  l.map Prod.fst

/-- Python `key in d` on a mapping. -/
def containsKey (k : String) : List (String × Json) → Bool
  | [] => false
  | (k', _) :: rest => decide (k' = k) || containsKey k rest

/-- Python `d[key]` on a mapping, as an option (the value at the key). -/
def lookupKey (k : String) : List (String × Json) → Option Json
  | [] => none
  | (k', v') :: rest => if k' = k then some v' else lookupKey k rest

/-- Python `d[key] = v`: overwrite in place when the key exists (keeping its
position), otherwise append at the end. -/
def dictInsert (l : List (String × Json)) (k : String) (v : Json) :
    List (String × Json) :=
  match l with
  | [] => [(k, v)]
  | (k', v') :: rest =>
      if k' = k then (k', v) :: rest else (k', v') :: dictInsert rest k v

/-- Second loop of `align_json`: `for key in target.keys(): if key not in
new_obj: new_obj[key] = target[key]`, with `acc` the dictionary built so
far. -/
def alignLoop2 : List (String × Json) → List (String × Json) →
    List (String × Json)
  | [], acc => acc
  | (k, v) :: rest, acc =>
      if containsKey k acc then alignLoop2 rest acc
      else alignLoop2 rest (dictInsert acc k v)

mutual

/-- `align_json(template, target)` from `align.py`: on a pair of mappings,
build a new dict by the two loops; otherwise return `target`. -/
def align_json : Json → Json → Json
  | .obj ts, .obj gs => .obj (alignLoop2 gs (alignLoop1 ts gs []))
  | _, t => t
termination_by t _ => sizeOf t
decreasing_by all_goals simp_wf

/-- First loop of `align_json`: `for key in template.keys(): if key in
target: new_obj[key] = align_json(template[key], target[key])`, with `acc`
the dictionary built so far. -/
def alignLoop1 : List (String × Json) → List (String × Json) →
    List (String × Json) → List (String × Json)
  | [], _, acc => acc
  | (k, v) :: rest, gs, acc =>
      match lookupKey k gs with
      | some w => alignLoop1 rest gs (dictInsert acc k (align_json v w))
      | none => alignLoop1 rest gs acc
termination_by ts _ _ => sizeOf ts
decreasing_by all_goals simp_wf <;> omega

end

/-- `f"{current_path}.{k}" if current_path else k` from `check_keys.py`. -/
def joinPath (cp k : String) : String :=
  if cp = "" then k else cp ++ "." ++ k

mutual

/-- `get_paths(data, current_path)` from `check_keys.py`: the set of dotted
key paths of all mapping keys reachable from `data` under prefix
`current_path`. -/
def get_paths : Json → String → Finset String
  | .obj l, cp => pathsList l cp
  | _, _ => ∅
termination_by d _ => sizeOf d
decreasing_by all_goals simp_wf

/-- The loop body of `get_paths` over the entries of a mapping node. -/
def pathsList : List (String × Json) → String → Finset String
  | [], _ => ∅
  | (k, v) :: rest, cp =>
      insert (joinPath cp k) (get_paths v (joinPath cp k)) ∪ pathsList rest cp
termination_by l _ => sizeOf l
decreasing_by all_goals simp_wf <;> omega

end

/-- `missing_in_fr = sorted(list(en_keys - fr_keys))` from `check_keys.py`. -/
def missing_in_fr (en_keys fr_keys : Finset String) : List String :=
  (en_keys \ fr_keys).sort (· ≤ ·)

/-- `extra_in_fr = sorted(list(fr_keys - en_keys))` from `check_keys.py`. -/
def extra_in_fr (en_keys fr_keys : Finset String) : List String :=
  (fr_keys \ en_keys).sort (· ≤ ·)

/-- `isinstance(x, dict)`. -/
def isObj : Json → Bool
  | .obj _ => true
  | _ => false

mutual

/-- A document is well formed when no mapping node has duplicate keys: the
invariant of every tree parsed from JSON into Python dictionaries. -/
def wf : Json → Bool
  | .obj l => decide (getKeys l).Nodup && wfList l
  | _ => true
termination_by d => sizeOf d
decreasing_by all_goals simp_wf

/-- `wf` on the values of a mapping's entries. -/
def wfList : List (String × Json) → Bool
  | [] => true
  | (_, v) :: rest => wf v && wfList rest
termination_by l => sizeOf l
decreasing_by all_goals simp_wf <;> omega

end

/-! ### Spec-side declarative forms

`alignSharedSpec` and `alignExtraSpec` transcribe the specification's
description of the two passes of the aligner; the refinement lemma
`align_obj_spec` below connects them to the imperative loops of
`align_json`. -/

/-- First pass, as described by the spec: iterate the reference's entries in
order and, for each key also present in the target, emit the recursive
alignment of the two subtrees. -/
def alignSharedSpec (ts gs : List (String × Json)) : List (String × Json) :=
  ts.filterMap fun p => (lookupKey p.1 gs).map fun w => (p.1, align_json p.2 w)

/-- Second pass, as described by the spec: iterate the target's entries in
order and keep, verbatim, those whose key was not inserted by the first
pass. -/
def alignExtraSpec (ts gs : List (String × Json)) : List (String × Json) :=
  gs.filter fun p => !containsKey p.1 (alignSharedSpec ts gs)

/-- `HasPath d cp p` holds when `p` is a dotted key path produced from
document `d` under accumulated prefix `cp`: either the path of one of `d`'s
own keys, or a path produced inside the subtree under one of its keys with
the extended prefix. -/
inductive HasPath : Json → String → String → Prop where
  | key : ∀ {l : List (String × Json)} {cp k : String} {v : Json},
      (k, v) ∈ l → HasPath (.obj l) cp (joinPath cp k)
  | child : ∀ {l : List (String × Json)} {cp k p : String} {v : Json},
      (k, v) ∈ l → HasPath v (joinPath cp k) p → HasPath (.obj l) cp p

/-! ### Basic lemmas on the dictionary primitives -/

@[simp] theorem getKeys_nil : getKeys [] = [] := rfl

@[simp] theorem getKeys_cons {k : String} {v : Json}
    {l : List (String × Json)} : getKeys ((k, v) :: l) = k :: getKeys l := rfl

@[simp] theorem getKeys_append {l1 l2 : List (String × Json)} :
    getKeys (l1 ++ l2) = getKeys l1 ++ getKeys l2 :=
  List.map_append _ _ _

theorem mem_getKeys {k : String} {l : List (String × Json)} :
    k ∈ getKeys l ↔ ∃ v, (k, v) ∈ l := by
  constructor
  · intro h
    obtain ⟨⟨a, b⟩, hm, hk⟩ := List.mem_map.1 h
    exact ⟨b, by rwa [show a = k from hk] at hm⟩
  · rintro ⟨v, hv⟩
    exact List.mem_map.2 ⟨(k, v), hv, rfl⟩

theorem containsKey_iff {k : String} {l : List (String × Json)} :
    containsKey k l = true ↔ k ∈ getKeys l := by
  induction l with
  | nil => simp [containsKey]
  | cons p rest ih =>
      obtain ⟨k', v'⟩ := p
      by_cases h : k' = k
      · subst h
        simp [containsKey]
      · have h' : ¬k = k' := fun hh => h hh.symm
        simp [containsKey, h, h', ih]

theorem lookupKey_eq_none_iff {k : String} {l : List (String × Json)} :
    lookupKey k l = none ↔ k ∉ getKeys l := by
  induction l with
  | nil => simp [lookupKey]
  | cons p rest ih =>
      obtain ⟨k', v'⟩ := p
      by_cases h : k' = k
      · subst h
        simp [lookupKey]
      · have h' : ¬k = k' := fun hh => h hh.symm
        simp [lookupKey, h, h', ih]

theorem lookupKey_mem {k : String} {w : Json} {l : List (String × Json)}
    (h : lookupKey k l = some w) : (k, w) ∈ l := by
  induction l with
  | nil => simp [lookupKey] at h
  | cons p rest ih =>
      obtain ⟨k', v'⟩ := p
      by_cases hk : k' = k
      · subst hk
        simp [lookupKey] at h
        simp [h]
      · simp [lookupKey, hk] at h
        simp [ih h]

theorem mem_lookupKey {k : String} {w : Json} {l : List (String × Json)}
    (hnd : (getKeys l).Nodup) (h : (k, w) ∈ l) : lookupKey k l = some w := by
  induction l with
  | nil => simp at h
  | cons p rest ih =>
      obtain ⟨k', v'⟩ := p
      rw [getKeys_cons] at hnd
      have hknd := List.nodup_cons.1 hnd
      rcases List.mem_cons.1 h with h1 | h1
      · simp only [Prod.mk.injEq] at h1
        obtain ⟨rfl, rfl⟩ := h1
        simp [lookupKey]
      · have hkmem : k ∈ getKeys rest := mem_getKeys.2 ⟨w, h1⟩
        have hk : ¬k' = k := fun hh => hknd.1 (hh ▸ hkmem)
        simp [lookupKey, hk]
        exact ih hknd.2 h1

theorem lookupKey_isSome_iff {k : String} {l : List (String × Json)} :
    (∃ w, lookupKey k l = some w) ↔ k ∈ getKeys l := by
  induction l with
  | nil => simp [lookupKey]
  | cons p rest ih =>
      obtain ⟨k', v'⟩ := p
      by_cases h : k' = k
      · subst h
        simp [lookupKey]
      · have h' : ¬k = k' := fun hh => h hh.symm
        simp [lookupKey, h, h', ih]

theorem dictInsert_of_not_contains {k : String} {v : Json}
    {l : List (String × Json)} (h : k ∉ getKeys l) :
    dictInsert l k v = l ++ [(k, v)] := by
  induction l with
  | nil => simp [dictInsert]
  | cons p rest ih =>
      obtain ⟨k', v'⟩ := p
      rw [getKeys_cons] at h
      have h1 : ¬k' = k := fun hh => h (by simp [hh])
      have h2 : k ∉ getKeys rest := fun hh => h (by simp [hh])
      simp [dictInsert, h1, ih h2]

theorem containsKey_append {k : String} {l1 l2 : List (String × Json)} :
    containsKey k (l1 ++ l2) = (containsKey k l1 || containsKey k l2) := by
  induction l1 with
  | nil => simp [containsKey]
  | cons p rest ih =>
      obtain ⟨k', v'⟩ := p
      simp [containsKey, ih, Bool.or_assoc]

theorem lookupKey_append {k : String} {l1 l2 : List (String × Json)} :
    lookupKey k (l1 ++ l2) =
      match lookupKey k l1 with
      | some w => some w
      | none => lookupKey k l2 := by
  induction l1 with
  | nil => simp [lookupKey]
  | cons p rest ih =>
      obtain ⟨k', v'⟩ := p
      by_cases h : k' = k <;> simp [lookupKey, h, ih]

/-! ### Well-formedness helpers -/

theorem wf_obj_iff {l : List (String × Json)} :
    wf (.obj l) = true ↔ (getKeys l).Nodup ∧ wfList l = true := by
  rw [wf]
  simp

theorem wfList_iff {l : List (String × Json)} :
    wfList l = true ↔ ∀ k v, (k, v) ∈ l → wf v = true := by
  induction l with
  | nil => simp [wfList]
  | cons p rest ih =>
      obtain ⟨k', v'⟩ := p
      rw [wfList]
      simp only [Bool.and_eq_true, ih]
      constructor
      · rintro ⟨h1, h2⟩ k v hm
        rcases List.mem_cons.1 hm with hm | hm
        · simp only [Prod.mk.injEq] at hm
          exact hm.2 ▸ h1
        · exact h2 k v hm
      · intro h
        exact ⟨h k' v' (List.mem_cons_self _ _),
          fun k v hm => h k v (List.mem_cons_of_mem _ hm)⟩

theorem wf_obj_nodup {l : List (String × Json)} (h : wf (.obj l) = true) :
    (getKeys l).Nodup :=
  (wf_obj_iff.1 h).1

theorem wf_obj_val {l : List (String × Json)} {k : String} {v : Json}
    (h : wf (.obj l) = true) (hm : (k, v) ∈ l) : wf v = true :=
  wfList_iff.1 (wf_obj_iff.1 h).2 k v hm

/-! ### Refinement: the loops of `align_json` compute the spec-side passes -/

theorem alignSharedSpec_nil {gs : List (String × Json)} :
    alignSharedSpec [] gs = [] := rfl

theorem alignSharedSpec_cons {k : String} {v : Json}
    {ts gs : List (String × Json)} :
    alignSharedSpec ((k, v) :: ts) gs =
      match lookupKey k gs with
      | some w => (k, align_json v w) :: alignSharedSpec ts gs
      | none => alignSharedSpec ts gs := by
  cases h : lookupKey k gs <;> simp [alignSharedSpec, List.filterMap_cons, h]

theorem mem_keys_alignSharedSpec {k : String} {ts gs : List (String × Json)} :
    k ∈ getKeys (alignSharedSpec ts gs) ↔
      k ∈ getKeys ts ∧ k ∈ getKeys gs := by
  induction ts with
  | nil => simp [alignSharedSpec_nil]
  | cons p rest ih =>
      obtain ⟨k', v'⟩ := p
      rw [alignSharedSpec_cons]
      cases h : lookupKey k' gs with
      | none =>
          simp only [getKeys_cons, List.mem_cons, ih]
          constructor
          · rintro ⟨h1, h2⟩
            exact ⟨Or.inr h1, h2⟩
          · rintro ⟨h1 | h1, h2⟩
            · exact absurd (h1 ▸ h2) (lookupKey_eq_none_iff.1 (h1 ▸ h))
            · exact ⟨h1, h2⟩
      | some w =>
          have hk' : k' ∈ getKeys gs := lookupKey_isSome_iff.1 ⟨w, h⟩
          simp only [getKeys_cons, List.mem_cons, ih]
          constructor
          · rintro (h1 | ⟨h1, h2⟩)
            · exact ⟨Or.inl h1, h1 ▸ hk'⟩
            · exact ⟨Or.inr h1, h2⟩
          · rintro ⟨h1 | h1, h2⟩
            · exact Or.inl h1
            · exact Or.inr ⟨h1, h2⟩

theorem keys_alignSharedSpec_sublist {ts gs : List (String × Json)} :
    List.Sublist (getKeys (alignSharedSpec ts gs)) (getKeys ts) := by
  induction ts with
  | nil => simp [alignSharedSpec_nil]
  | cons p rest ih =>
      obtain ⟨k', v'⟩ := p
      rw [alignSharedSpec_cons]
      cases h : lookupKey k' gs with
      | none => exact List.Sublist.cons _ ih
      | some w => exact List.Sublist.cons₂ _ ih

theorem alignLoop1_eq_spec {ts gs : List (String × Json)} :
    ∀ acc : List (String × Json), (getKeys ts).Nodup →
      (∀ k, k ∈ getKeys acc → k ∉ getKeys ts) →
      alignLoop1 ts gs acc = acc ++ alignSharedSpec ts gs := by
  induction ts with
  | nil => intro acc _ _; simp [alignLoop1, alignSharedSpec_nil]
  | cons p rest ih =>
      obtain ⟨k, v⟩ := p
      intro acc hnd hdisj
      rw [getKeys_cons] at hnd
      have hknd := List.nodup_cons.1 hnd
      rw [alignLoop1, alignSharedSpec_cons]
      cases h : lookupKey k gs with
      | none =>
          simp only
          exact ih acc hknd.2 fun k' hk' =>
            fun hmem => hdisj k' hk' (by simp [hmem])
      | some w =>
          simp only
          have hkacc : k ∉ getKeys acc := fun hk =>
            hdisj k hk (by simp)
          rw [dictInsert_of_not_contains hkacc]
          rw [ih (acc ++ [(k, align_json v w)]) hknd.2 ?_]
          · simp
          · intro k' hk'
            rw [getKeys_append] at hk'
            rcases List.mem_append.1 hk' with hk' | hk'
            · exact fun hmem => hdisj k' hk' (by simp [hmem])
            · simp only [getKeys_cons, getKeys_nil, List.mem_singleton] at hk'
              exact hk' ▸ hknd.1

theorem alignLoop2_eq_filter {gs : List (String × Json)} :
    ∀ acc : List (String × Json), (getKeys gs).Nodup →
      alignLoop2 gs acc = acc ++ gs.filter fun p => !containsKey p.1 acc := by
  induction gs with
  | nil => intro acc _; simp [alignLoop2]
  | cons p rest ih =>
      obtain ⟨k, v⟩ := p
      intro acc hnd
      rw [getKeys_cons] at hnd
      have hknd := List.nodup_cons.1 hnd
      rw [alignLoop2]
      by_cases h : containsKey k acc = true
      · simp only [h, if_true]
        rw [ih acc hknd.2]
        simp [List.filter_cons, h]
      · simp only [h, if_false]
        have hkacc : k ∉ getKeys acc := fun hk => h (containsKey_iff.2 hk)
        rw [dictInsert_of_not_contains hkacc]
        rw [ih (acc ++ [(k, v)]) hknd.2]
        have hfilter :
            (rest.filter fun p => !containsKey p.1 (acc ++ [(k, v)])) =
              rest.filter fun p => !containsKey p.1 acc := by
          apply List.filter_congr
          intro q hq
          have hqk : ¬q.1 = k := by
            intro hh
            exact hknd.1 (hh ▸ mem_getKeys.2 ⟨q.2, hq⟩)
          have hkq : ¬k = q.1 := fun hh => hqk hh.symm
          rw [containsKey_append]
          simp [containsKey, hkq]
        rw [hfilter]
        simp [List.filter_cons, h]

theorem align_obj_spec {ts gs : List (String × Json)}
    (hts : (getKeys ts).Nodup) (hgs : (getKeys gs).Nodup) :
    align_json (.obj ts) (.obj gs) =
      .obj (alignSharedSpec ts gs ++ alignExtraSpec ts gs) := by
  rw [align_json]
  rw [alignLoop1_eq_spec [] hts (by simp)]
  rw [alignLoop2_eq_filter _ hgs]
  rfl

/-! ### Membership descriptions of the two passes -/

theorem mem_alignSharedSpec {k : String} {x : Json}
    {ts gs : List (String × Json)} :
    (k, x) ∈ alignSharedSpec ts gs ↔
      ∃ v w, (k, v) ∈ ts ∧ lookupKey k gs = some w ∧ x = align_json v w := by
  constructor
  · intro h
    obtain ⟨⟨a, b⟩, ha, hfa⟩ := List.mem_filterMap.1 h
    obtain ⟨w, hw, hpair⟩ := Option.map_eq_some'.1 hfa
    simp only [Prod.mk.injEq] at hpair
    obtain ⟨rfl, rfl⟩ := hpair
    exact ⟨b, w, ha, hw, rfl⟩
  · rintro ⟨v, w, hv, hw, rfl⟩
    exact List.mem_filterMap.2 ⟨(k, v), hv, by simp [hw]⟩

theorem mem_alignExtraSpec {k : String} {x : Json}
    {ts gs : List (String × Json)} :
    (k, x) ∈ alignExtraSpec ts gs ↔ (k, x) ∈ gs ∧ k ∉ getKeys ts := by
  rw [alignExtraSpec, List.mem_filter]
  constructor
  · rintro ⟨h1, h2⟩
    refine ⟨h1, fun hk => ?_⟩
    have hkgs : k ∈ getKeys gs := mem_getKeys.2 ⟨x, h1⟩
    have : containsKey k (alignSharedSpec ts gs) = true :=
      containsKey_iff.2 (mem_keys_alignSharedSpec.2 ⟨hk, hkgs⟩)
    simp [this] at h2
  · rintro ⟨h1, h2⟩
    refine ⟨h1, ?_⟩
    have : ¬containsKey k (alignSharedSpec ts gs) = true := fun hc =>
      h2 (mem_keys_alignSharedSpec.1 (containsKey_iff.1 hc)).1
    simp at this
    simp [this]

/-! ### Path sets -/

theorem get_paths_obj {l : List (String × Json)} {cp : String} :
    get_paths (.obj l) cp = pathsList l cp := by
  rw [get_paths]

theorem get_paths_of_not_obj (d : Json) {cp : String} (h : isObj d = false) :
    get_paths d cp = ∅ := by
  cases d <;> simp [isObj] at h ⊢ <;> rw [get_paths] <;>
    intro l hl <;> exact Json.noConfusion hl

theorem pathsList_nil {cp : String} : pathsList [] cp = ∅ := by
  rw [pathsList]

theorem pathsList_cons {k : String} {v : Json} {l : List (String × Json)}
    {cp : String} :
    pathsList ((k, v) :: l) cp =
      insert (joinPath cp k) (get_paths v (joinPath cp k)) ∪ pathsList l cp := by
  rw [pathsList]

theorem mem_pathsList {p : String} {l : List (String × Json)} {cp : String} :
    p ∈ pathsList l cp ↔
      ∃ k v, (k, v) ∈ l ∧
        (p = joinPath cp k ∨ p ∈ get_paths v (joinPath cp k)) := by
  induction l with
  | nil => simp [pathsList_nil]
  | cons q rest ih =>
      obtain ⟨k', v'⟩ := q
      rw [pathsList_cons]
      simp only [Finset.mem_union, Finset.mem_insert, ih]
      constructor
      · rintro ((h | h) | ⟨k, v, hm, hp⟩)
        · exact ⟨k', v', List.mem_cons_self _ _, Or.inl h⟩
        · exact ⟨k', v', List.mem_cons_self _ _, Or.inr h⟩
        · exact ⟨k, v, List.mem_cons_of_mem _ hm, hp⟩
      · rintro ⟨k, v, hm, hp⟩
        rcases List.mem_cons.1 hm with hm | hm
        · simp only [Prod.mk.injEq] at hm
          obtain ⟨rfl, rfl⟩ := hm
          rcases hp with hp | hp
          · exact Or.inl (Or.inl hp)
          · exact Or.inl (Or.inr hp)
        · exact Or.inr ⟨k, v, hm, hp⟩

theorem pathsList_append {l1 l2 : List (String × Json)} {cp : String} :
    pathsList (l1 ++ l2) cp = pathsList l1 cp ∪ pathsList l2 cp := by
  induction l1 with
  | nil => simp [pathsList_nil]
  | cons q rest ih =>
      obtain ⟨k', v'⟩ := q
      rw [List.cons_append, pathsList_cons, pathsList_cons, ih,
        Finset.union_assoc]

theorem sizeOf_val_lt {k : String} {v : Json} {l : List (String × Json)}
    (h : (k, v) ∈ l) : sizeOf v < sizeOf (Json.obj l) := by
  have h1 := List.sizeOf_lt_of_mem h
  simp only [Prod.mk.sizeOf_spec] at h1
  simp only [Json.obj.sizeOf_spec]
  omega

/-! ### Alignment at non-mapping nodes and path preservation -/

theorem align_not_obj (r t : Json) (h : isObj r = false ∨ isObj t = false) :
    align_json r t = t := by
  cases r <;> cases t <;> simp [isObj] at h <;> rw [align_json] <;>
    intro a b h1 h2 <;>
    first
      | exact Json.noConfusion h1
      | exact Json.noConfusion h2

theorem get_paths_align_aux :
    ∀ n : Nat, ∀ r t : Json, sizeOf r < n → wf r = true → wf t = true →
      ∀ cp : String, get_paths (align_json r t) cp = get_paths t cp := by
  intro n
  induction n with
  | zero =>
      intro r t h
      omega
  | succ n ih =>
      intro r t hsize hr ht cp
      cases r with
      | str s => rw [align_not_obj (Json.str s) _ (Or.inl rfl)]
      | num m => rw [align_not_obj (Json.num m) _ (Or.inl rfl)]
      | bool b => rw [align_not_obj (Json.bool b) _ (Or.inl rfl)]
      | null => rw [align_not_obj Json.null _ (Or.inl rfl)]
      | arr xs => rw [align_not_obj (Json.arr xs) _ (Or.inl rfl)]
      | obj ts =>
          cases t with
          | str s => rw [align_not_obj _ (Json.str s) (Or.inr rfl)]
          | num m => rw [align_not_obj _ (Json.num m) (Or.inr rfl)]
          | bool b => rw [align_not_obj _ (Json.bool b) (Or.inr rfl)]
          | null => rw [align_not_obj _ Json.null (Or.inr rfl)]
          | arr xs => rw [align_not_obj _ (Json.arr xs) (Or.inr rfl)]
          | obj gs =>
              have hts := wf_obj_nodup hr
              have hgs := wf_obj_nodup ht
              rw [align_obj_spec hts hgs, get_paths_obj, get_paths_obj,
                pathsList_append]
              apply Finset.ext
              intro p
              simp only [Finset.mem_union, mem_pathsList]
              constructor
              · rintro (⟨k, x, hm, hp⟩ | ⟨k, x, hm, hp⟩)
                · obtain ⟨v, w, hv, hw, rfl⟩ := mem_alignSharedSpec.1 hm
                  have hwmem : (k, w) ∈ gs := lookupKey_mem hw
                  have hsz : sizeOf v < n := by
                    have := sizeOf_val_lt hv
                    omega
                  have hrec := ih v w hsz (wf_obj_val hr hv) (wf_obj_val ht hwmem)
                  refine ⟨k, w, hwmem, ?_⟩
                  rcases hp with hp | hp
                  · exact Or.inl hp
                  · exact Or.inr (hrec _ ▸ hp)
                · obtain ⟨h1, _⟩ := mem_alignExtraSpec.1 hm
                  exact ⟨k, x, h1, hp⟩
              · rintro ⟨k, w, hm, hp⟩
                by_cases hk : k ∈ getKeys ts
                · obtain ⟨v, hv⟩ := mem_getKeys.1 hk
                  have hw : lookupKey k gs = some w := mem_lookupKey hgs hm
                  have hsz : sizeOf v < n := by
                    have := sizeOf_val_lt hv
                    omega
                  have hrec := ih v w hsz (wf_obj_val hr hv) (wf_obj_val ht hm)
                  refine Or.inl ⟨k, align_json v w,
                    mem_alignSharedSpec.2 ⟨v, w, hv, hw, rfl⟩, ?_⟩
                  rcases hp with hp | hp
                  · exact Or.inl hp
                  · exact Or.inr ((hrec _).symm ▸ hp)
                · exact Or.inr ⟨k, w, mem_alignExtraSpec.2 ⟨hm, hk⟩, hp⟩

theorem get_paths_align {r t : Json} (hr : wf r = true) (ht : wf t = true)
    (cp : String) : get_paths (align_json r t) cp = get_paths t cp :=
  get_paths_align_aux (sizeOf r + 1) r t (by omega) hr ht cp

/-! ### The aligner preserves well-formedness -/

theorem keys_alignExtraSpec_sublist {ts gs : List (String × Json)} :
    List.Sublist (getKeys (alignExtraSpec ts gs)) (getKeys gs) :=
  (List.filter_sublist _).map Prod.fst

theorem wf_align_aux :
    ∀ n : Nat, ∀ r t : Json, sizeOf r < n → wf r = true → wf t = true →
      wf (align_json r t) = true := by
  intro n
  induction n with
  | zero =>
      intro r t h
      omega
  | succ n ih =>
      intro r t hsize hr ht
      cases r with
      | str s => rw [align_not_obj (Json.str s) _ (Or.inl rfl)]; exact ht
      | num m => rw [align_not_obj (Json.num m) _ (Or.inl rfl)]; exact ht
      | bool b => rw [align_not_obj (Json.bool b) _ (Or.inl rfl)]; exact ht
      | null => rw [align_not_obj Json.null _ (Or.inl rfl)]; exact ht
      | arr xs => rw [align_not_obj (Json.arr xs) _ (Or.inl rfl)]; exact ht
      | obj ts =>
          cases t with
          | str s => rw [align_not_obj _ (Json.str s) (Or.inr rfl)]; exact ht
          | num m => rw [align_not_obj _ (Json.num m) (Or.inr rfl)]; exact ht
          | bool b => rw [align_not_obj _ (Json.bool b) (Or.inr rfl)]; exact ht
          | null => rw [align_not_obj _ Json.null (Or.inr rfl)]; exact ht
          | arr xs => rw [align_not_obj _ (Json.arr xs) (Or.inr rfl)]; exact ht
          | obj gs =>
              have hts := wf_obj_nodup hr
              have hgs := wf_obj_nodup ht
              rw [align_obj_spec hts hgs, wf_obj_iff]
              constructor
              · rw [getKeys_append]
                refine List.Nodup.append
                  (List.Nodup.sublist keys_alignSharedSpec_sublist hts)
                  (List.Nodup.sublist keys_alignExtraSpec_sublist hgs) ?_
                rw [List.disjoint_left]
                intro k hkS hkE
                obtain ⟨x, hx⟩ := mem_getKeys.1 hkE
                exact (mem_alignExtraSpec.1 hx).2
                  (mem_keys_alignSharedSpec.1 hkS).1
              · rw [wfList_iff]
                intro k v hm
                rcases List.mem_append.1 hm with hm | hm
                · obtain ⟨v', w, hv', hw, rfl⟩ := mem_alignSharedSpec.1 hm
                  have hsz : sizeOf v' < n := by
                    have := sizeOf_val_lt hv'
                    omega
                  exact ih v' w hsz (wf_obj_val hr hv')
                    (wf_obj_val ht (lookupKey_mem hw))
                · exact wf_obj_val ht (mem_alignExtraSpec.1 hm).1

/-! ### Aligning a document with itself -/

theorem filterMap_eq_self {α : Type} {f : α → Option α} {l : List α}
    (h : ∀ p ∈ l, f p = some p) : l.filterMap f = l := by
  induction l with
  | nil => rfl
  | cons a rest ih =>
      have ha := h a (List.mem_cons_self _ _)
      simp [List.filterMap_cons, ha,
        ih fun p hp => h p (List.mem_cons_of_mem _ hp)]

theorem align_self_aux :
    ∀ n : Nat, ∀ d : Json, sizeOf d < n → wf d = true →
      align_json d d = d := by
  intro n
  induction n with
  | zero =>
      intro d h
      omega
  | succ n ih =>
      intro d hsize hd
      cases d with
      | str s => rw [align_not_obj (Json.str s) _ (Or.inl rfl)]
      | num m => rw [align_not_obj (Json.num m) _ (Or.inl rfl)]
      | bool b => rw [align_not_obj (Json.bool b) _ (Or.inl rfl)]
      | null => rw [align_not_obj Json.null _ (Or.inl rfl)]
      | arr xs => rw [align_not_obj (Json.arr xs) _ (Or.inl rfl)]
      | obj l =>
          have hnd := wf_obj_nodup hd
          rw [align_obj_spec hnd hnd]
          have hS : alignSharedSpec l l = l := by
            apply filterMap_eq_self
            rintro ⟨k, v⟩ hp
            have hlk : lookupKey k l = some v := mem_lookupKey hnd hp
            have hsz : sizeOf v < n := by
              have := sizeOf_val_lt hp
              omega
            simp [hlk, ih v hsz (wf_obj_val hd hp)]
          have hE : alignExtraSpec l l = [] := by
            rw [alignExtraSpec, hS]
            apply List.filter_eq_nil_iff.2
            rintro ⟨k, v⟩ hp
            simp [containsKey_iff.2 (mem_getKeys.2 ⟨v, hp⟩)]
          rw [hS, hE, List.append_nil]

/-- `alignSharedSpec` only inspects the target through `lookupKey` at the
reference's keys. -/
theorem alignSharedSpec_ext {ts gs gs' : List (String × Json)}
    (h : ∀ k v, (k, v) ∈ ts →
      Option.map (fun w => (k, align_json v w)) (lookupKey k gs') =
        Option.map (fun w => (k, align_json v w)) (lookupKey k gs)) :
    alignSharedSpec ts gs' = alignSharedSpec ts gs := by
  induction ts with
  | nil => rfl
  | cons p rest ih =>
      obtain ⟨k, v⟩ := p
      rw [alignSharedSpec_cons, alignSharedSpec_cons]
      have hkv := h k v (List.mem_cons_self _ _)
      have hrest := ih fun k' v' hm => h k' v' (List.mem_cons_of_mem _ hm)
      cases hg' : lookupKey k gs' with
      | some w' =>
          cases hg : lookupKey k gs with
          | some w =>
              rw [hg', hg] at hkv
              simp only [Option.map_some', Option.some.injEq, Prod.mk.injEq, true_and] at hkv
              simp [hrest, hkv]
          | none =>
              rw [hg', hg] at hkv
              simp at hkv
      | none =>
          cases hg : lookupKey k gs with
          | some w =>
              rw [hg', hg] at hkv
              simp at hkv
          | none => simp [hrest]

/-! ### Idempotence of alignment in its second argument -/

theorem align_idem_aux :
    ∀ n : Nat, ∀ r t : Json, sizeOf r < n → wf r = true → wf t = true →
      align_json r (align_json r t) = align_json r t := by
  intro n
  induction n with
  | zero =>
      intro r t h
      omega
  | succ n ih =>
      intro r t hsize hr ht
      cases r with
      | str s => rw [align_not_obj (Json.str s) _ (Or.inl rfl)]
      | num m => rw [align_not_obj (Json.num m) _ (Or.inl rfl)]
      | bool b => rw [align_not_obj (Json.bool b) _ (Or.inl rfl)]
      | null => rw [align_not_obj Json.null _ (Or.inl rfl)]
      | arr xs => rw [align_not_obj (Json.arr xs) _ (Or.inl rfl)]
      | obj ts =>
          cases t with
          | str s =>
              rw [align_not_obj _ (Json.str s) (Or.inr rfl),
                align_not_obj _ (Json.str s) (Or.inr rfl)]
          | num m =>
              rw [align_not_obj _ (Json.num m) (Or.inr rfl),
                align_not_obj _ (Json.num m) (Or.inr rfl)]
          | bool b =>
              rw [align_not_obj _ (Json.bool b) (Or.inr rfl),
                align_not_obj _ (Json.bool b) (Or.inr rfl)]
          | null =>
              rw [align_not_obj _ Json.null (Or.inr rfl),
                align_not_obj _ Json.null (Or.inr rfl)]
          | arr xs =>
              rw [align_not_obj _ (Json.arr xs) (Or.inr rfl),
                align_not_obj _ (Json.arr xs) (Or.inr rfl)]
          | obj gs =>
              have hts := wf_obj_nodup hr
              have hgs := wf_obj_nodup ht
              have hob := align_obj_spec hts hgs
              have hwfSE : wf (Json.obj
                  (alignSharedSpec ts gs ++ alignExtraSpec ts gs)) = true := by
                rw [← hob]
                exact wf_align_aux (n + 1) _ _ hsize hr ht
              have hndSE := wf_obj_nodup hwfSE
              have hndS : (getKeys (alignSharedSpec ts gs)).Nodup :=
                List.Nodup.sublist keys_alignSharedSpec_sublist hts
              have hA : alignSharedSpec ts
                  (alignSharedSpec ts gs ++ alignExtraSpec ts gs) =
                    alignSharedSpec ts gs := by
                apply alignSharedSpec_ext
                intro k v hp
                cases hk : lookupKey k gs with
                | some w =>
                    have hv' : (k, align_json v w) ∈ alignSharedSpec ts gs :=
                      mem_alignSharedSpec.2 ⟨v, w, hp, hk, rfl⟩
                    have hKS : lookupKey k
                        (alignSharedSpec ts gs ++ alignExtraSpec ts gs) =
                          some (align_json v w) := by
                      simp [lookupKey_append, mem_lookupKey hndS hv']
                    have hsz : sizeOf v < n := by
                      have := sizeOf_val_lt hp
                      omega
                    have hidem := ih v w hsz (wf_obj_val hr hp)
                      (wf_obj_val ht (lookupKey_mem hk))
                    simp [hKS, hidem]
                | none =>
                    have hkgs : k ∉ getKeys gs := lookupKey_eq_none_iff.1 hk
                    have hkS : k ∉ getKeys (alignSharedSpec ts gs) :=
                      fun hmem => hkgs (mem_keys_alignSharedSpec.1 hmem).2
                    have hkE : k ∉ getKeys (alignExtraSpec ts gs) := by
                      intro hmem
                      obtain ⟨x, hx⟩ := mem_getKeys.1 hmem
                      exact hkgs (mem_getKeys.2 ⟨x, (mem_alignExtraSpec.1 hx).1⟩)
                    have hnone : lookupKey k
                        (alignSharedSpec ts gs ++ alignExtraSpec ts gs) = none := by
                      rw [lookupKey_append, lookupKey_eq_none_iff.2 hkS,
                        lookupKey_eq_none_iff.2 hkE]
                    simp [hnone]
              have hB : alignExtraSpec ts
                  (alignSharedSpec ts gs ++ alignExtraSpec ts gs) =
                    alignExtraSpec ts gs := by
                rw [alignExtraSpec, hA, List.filter_append]
                have h1 : (alignSharedSpec ts gs).filter
                    (fun p => !containsKey p.1 (alignSharedSpec ts gs)) = [] := by
                  apply List.filter_eq_nil_iff.2
                  rintro ⟨k, v⟩ hp
                  simp [containsKey_iff.2 (mem_getKeys.2 ⟨v, hp⟩)]
                have h2 : (alignExtraSpec ts gs).filter
                    (fun p => !containsKey p.1 (alignSharedSpec ts gs)) =
                      alignExtraSpec ts gs := by
                  apply List.filter_eq_self.2
                  rintro ⟨k, v⟩ hp
                  have hknot : k ∉ getKeys (alignSharedSpec ts gs) :=
                    fun hmem =>
                      (mem_alignExtraSpec.1 hp).2
                        (mem_keys_alignSharedSpec.1 hmem).1
                  cases hcc : containsKey k (alignSharedSpec ts gs) with
                  | false => simp
                  | true => exact absurd (containsKey_iff.1 hcc) hknot
                rw [h1, h2, List.nil_append]
              rw [hob, align_obj_spec hts hndSE, hA, hB]

/-! ### Wrappers at concrete size bounds -/

theorem wf_align {r t : Json} (hr : wf r = true) (ht : wf t = true) :
    wf (align_json r t) = true :=
  wf_align_aux (sizeOf r + 1) r t (by omega) hr ht

theorem align_self {d : Json} (hd : wf d = true) : align_json d d = d :=
  align_self_aux (sizeOf d + 1) d (by omega) hd

theorem align_idem {r t : Json} (hr : wf r = true) (ht : wf t = true) :
    align_json r (align_json r t) = align_json r t :=
  align_idem_aux (sizeOf r + 1) r t (by omega) hr ht

/-! ### Characterisation of the collected paths -/

theorem hasPath_of_mem_aux :
    ∀ n : Nat, ∀ d : Json, sizeOf d < n → ∀ cp p : String,
      p ∈ get_paths d cp → HasPath d cp p := by
  intro n
  induction n with
  | zero =>
      intro d h
      omega
  | succ n ih =>
      intro d hsize cp p hp
      cases d with
      | obj l =>
          rw [get_paths_obj] at hp
          obtain ⟨k, v, hm, hkp⟩ := mem_pathsList.1 hp
          rcases hkp with rfl | hkp
          · exact HasPath.key hm
          · have hsz : sizeOf v < n := by
              have := sizeOf_val_lt hm
              omega
            exact HasPath.child hm (ih v hsz _ _ hkp)
      | str s =>
          rw [get_paths_of_not_obj (Json.str s) rfl] at hp
          exact absurd hp (Finset.not_mem_empty p)
      | num m =>
          rw [get_paths_of_not_obj (Json.num m) rfl] at hp
          exact absurd hp (Finset.not_mem_empty p)
      | bool b =>
          rw [get_paths_of_not_obj (Json.bool b) rfl] at hp
          exact absurd hp (Finset.not_mem_empty p)
      | null =>
          rw [get_paths_of_not_obj (Json.null) rfl] at hp
          exact absurd hp (Finset.not_mem_empty p)
      | arr xs =>
          rw [get_paths_of_not_obj (Json.arr xs) rfl] at hp
          exact absurd hp (Finset.not_mem_empty p)

theorem mem_of_hasPath {d : Json} {cp p : String} (h : HasPath d cp p) :
    p ∈ get_paths d cp := by
  induction h with
  | key hm =>
      rw [get_paths_obj]
      exact mem_pathsList.2 ⟨_, _, hm, Or.inl rfl⟩
  | child hm _ ihm =>
      rw [get_paths_obj]
      exact mem_pathsList.2 ⟨_, _, hm, Or.inr ihm⟩

theorem mem_get_paths_iff {d : Json} {cp p : String} :
    p ∈ get_paths d cp ↔ HasPath d cp p :=
  ⟨fun h => hasPath_of_mem_aux (sizeOf d + 1) d (by omega) cp p h,
    mem_of_hasPath⟩

/-! ### Fuel-bounded and exception-aware models of the aligner

`alignFuel` makes the recursion depth explicit (returning `none` when the
budget runs out), and `alignE` models Python's `target[key]` indexing as a
fallible operation guarded, as in the source, by `key in target`.  Both are
shown to agree with `align_json`. -/

mutual

/-- `align_json` with an explicit recursion budget. -/
def alignFuel : Nat → Json → Json → Option Json
  | 0, _, _ => none
  | n + 1, .obj ts, .obj gs =>
      match alignLoop1Fuel n ts gs [] with
      | some acc => some (.obj (alignLoop2 gs acc))
      | none => none
  | _ + 1, _, t => some t
termination_by n _ _ => (n, 0)

/-- First loop of `alignFuel`. -/
def alignLoop1Fuel : Nat → List (String × Json) → List (String × Json) →
    List (String × Json) → Option (List (String × Json))
  | _, [], _, acc => some acc
  | n, (k, v) :: rest, gs, acc =>
      match lookupKey k gs with
      | some w =>
          match alignFuel n v w with
          | some a => alignLoop1Fuel n rest gs (dictInsert acc k a)
          | none => none
      | none => alignLoop1Fuel n rest gs acc
termination_by n ts _ _ => (n, ts.length + 1)

end

mutual

/-- `align_json` with Python's `target[key]` modelled as a fallible lookup
(raising `KeyError` when the key is absent), guarded by `key in target`
exactly as in the source. -/
def alignE : Json → Json → Except String Json
  | .obj ts, .obj gs =>
      match alignLoop1E ts gs [] with
      | .ok acc => .ok (.obj (alignLoop2 gs acc))
      | .error e => .error e
  | _, t => .ok t
termination_by t _ => sizeOf t
decreasing_by all_goals simp_wf

/-- First loop of `alignE`. -/
def alignLoop1E : List (String × Json) → List (String × Json) →
    List (String × Json) → Except String (List (String × Json))
  | [], _, acc => .ok acc
  | (k, v) :: rest, gs, acc =>
      if containsKey k gs then
        match lookupKey k gs with
        | some w =>
            match alignE v w with
            | .ok a => alignLoop1E rest gs (dictInsert acc k a)
            | .error e => .error e
        | none => .error "KeyError"
      else alignLoop1E rest gs acc
termination_by ts _ _ => sizeOf ts
decreasing_by all_goals simp_wf <;> omega

end

theorem containsKey_eq_isSome {k : String} {l : List (String × Json)} :
    containsKey k l = (lookupKey k l).isSome := by
  cases hl : lookupKey k l with
  | none =>
      have hn := lookupKey_eq_none_iff.1 hl
      cases hc : containsKey k l
      · rfl
      · exact absurd (containsKey_iff.1 hc) hn
  | some w =>
      exact containsKey_iff.2 (lookupKey_isSome_iff.1 ⟨w, hl⟩)

theorem alignLoop1Fuel_eq {n : Nat} {gs : List (String × Json)}
    (hrec : ∀ v w : Json, sizeOf v < n →
      alignFuel n v w = some (align_json v w)) :
    ∀ ts acc : List (String × Json), sizeOf ts ≤ n →
      alignLoop1Fuel n ts gs acc = some (alignLoop1 ts gs acc) := by
  intro ts
  induction ts with
  | nil =>
      intro acc _
      rw [alignLoop1Fuel, alignLoop1]
  | cons p rest ihts =>
      obtain ⟨k, v⟩ := p
      intro acc hsz
      simp only [List.cons.sizeOf_spec, Prod.mk.sizeOf_spec] at hsz
      rw [alignLoop1Fuel, alignLoop1]
      cases hk : lookupKey k gs with
      | none => exact ihts acc (by omega)
      | some w =>
          simp only [hrec v w (by omega)]
          exact ihts _ (by omega)

theorem alignFuel_adequate :
    ∀ n : Nat, ∀ r t : Json, sizeOf r < n →
      alignFuel n r t = some (align_json r t) := by
  intro n
  induction n with
  | zero =>
      intro r t h
      omega
  | succ n ih =>
      intro r t hsize
      cases r with
      | str s =>
          rw [align_not_obj (Json.str s) _ (Or.inl rfl), alignFuel];
            intro a b h1 h2; exact Json.noConfusion h1
      | num m =>
          rw [align_not_obj (Json.num m) _ (Or.inl rfl), alignFuel];
            intro a b h1 h2; exact Json.noConfusion h1
      | bool b =>
          rw [align_not_obj (Json.bool b) _ (Or.inl rfl), alignFuel];
            intro a b h1 h2; exact Json.noConfusion h1
      | null =>
          rw [align_not_obj Json.null _ (Or.inl rfl), alignFuel];
            intro a b h1 h2; exact Json.noConfusion h1
      | arr xs =>
          rw [align_not_obj (Json.arr xs) _ (Or.inl rfl), alignFuel];
            intro a b h1 h2; exact Json.noConfusion h1
      | obj ts =>
          cases t with
          | str s =>
              rw [align_not_obj _ (Json.str s) (Or.inr rfl), alignFuel];
                intro a b h1 h2; exact Json.noConfusion h2
          | num m =>
              rw [align_not_obj _ (Json.num m) (Or.inr rfl), alignFuel];
                intro a b h1 h2; exact Json.noConfusion h2
          | bool b =>
              rw [align_not_obj _ (Json.bool b) (Or.inr rfl), alignFuel];
                intro a b h1 h2; exact Json.noConfusion h2
          | null =>
              rw [align_not_obj _ Json.null (Or.inr rfl), alignFuel];
                intro a b h1 h2; exact Json.noConfusion h2
          | arr xs =>
              rw [align_not_obj _ (Json.arr xs) (Or.inr rfl), alignFuel];
                intro a b h1 h2; exact Json.noConfusion h2
          | obj gs =>
              rw [align_json, alignFuel]
              have hts : sizeOf ts ≤ n := by
                simp only [Json.obj.sizeOf_spec] at hsize
                omega
              rw [alignLoop1Fuel_eq ih ts [] hts]

theorem alignLoop1E_eq {n : Nat} {gs : List (String × Json)}
    (hrec : ∀ v w : Json, sizeOf v < n →
      alignE v w = .ok (align_json v w)) :
    ∀ ts acc : List (String × Json), sizeOf ts ≤ n →
      alignLoop1E ts gs acc = .ok (alignLoop1 ts gs acc) := by
  intro ts
  induction ts with
  | nil =>
      intro acc _
      rw [alignLoop1E, alignLoop1]
  | cons p rest ihts =>
      obtain ⟨k, v⟩ := p
      intro acc hsz
      simp only [List.cons.sizeOf_spec, Prod.mk.sizeOf_spec] at hsz
      rw [alignLoop1E, alignLoop1]
      cases hk : lookupKey k gs with
      | none =>
          have hc : containsKey k gs = false := by
            rw [containsKey_eq_isSome, hk]
            rfl
          simp only [hc, Bool.false_eq_true, if_false]
          exact ihts acc (by omega)
      | some w =>
          have hc : containsKey k gs = true := by
            rw [containsKey_eq_isSome, hk]
            rfl
          simp only [hc, if_true]
          rw [hrec v w (by omega)]
          exact ihts _ (by omega)

theorem alignE_adequate_aux :
    ∀ n : Nat, ∀ r t : Json, sizeOf r < n →
      alignE r t = .ok (align_json r t) := by
  intro n
  induction n with
  | zero =>
      intro r t h
      omega
  | succ n ih =>
      intro r t hsize
      cases r with
      | str s =>
          rw [align_not_obj (Json.str s) _ (Or.inl rfl), alignE];
            intro a b h1 h2; exact Json.noConfusion h1
      | num m =>
          rw [align_not_obj (Json.num m) _ (Or.inl rfl), alignE];
            intro a b h1 h2; exact Json.noConfusion h1
      | bool b =>
          rw [align_not_obj (Json.bool b) _ (Or.inl rfl), alignE];
            intro a b h1 h2; exact Json.noConfusion h1
      | null =>
          rw [align_not_obj Json.null _ (Or.inl rfl), alignE];
            intro a b h1 h2; exact Json.noConfusion h1
      | arr xs =>
          rw [align_not_obj (Json.arr xs) _ (Or.inl rfl), alignE];
            intro a b h1 h2; exact Json.noConfusion h1
      | obj ts =>
          cases t with
          | str s =>
              rw [align_not_obj _ (Json.str s) (Or.inr rfl), alignE];
                intro a b h1 h2; exact Json.noConfusion h2
          | num m =>
              rw [align_not_obj _ (Json.num m) (Or.inr rfl), alignE];
                intro a b h1 h2; exact Json.noConfusion h2
          | bool b =>
              rw [align_not_obj _ (Json.bool b) (Or.inr rfl), alignE];
                intro a b h1 h2; exact Json.noConfusion h2
          | null =>
              rw [align_not_obj _ Json.null (Or.inr rfl), alignE];
                intro a b h1 h2; exact Json.noConfusion h2
          | arr xs =>
              rw [align_not_obj _ (Json.arr xs) (Or.inr rfl), alignE];
                intro a b h1 h2; exact Json.noConfusion h2
          | obj gs =>
              rw [align_json, alignE]
              have hts : sizeOf ts ≤ n := by
                simp only [Json.obj.sizeOf_spec] at hsize
                omega
              rw [alignLoop1E_eq ih ts [] hts]

/-! ### Sample documents from the specification's scenarios -/

/-- Reference document of sample scenario 1: `{"a": {"b": 1, "c": 2}}`. -/
def sampleRef1 : Json := .obj [("a", .obj [("b", .num 1), ("c", .num 2)])]

/-- Target document of sample scenario 1: `{"a": {"c": 99, "d": 4}}`. -/
def sampleTgt1 : Json := .obj [("a", .obj [("c", .num 99), ("d", .num 4)])]

/-- Reference document of sample scenario 3: `{"a": 1, "b": {"c": 2}}`. -/
def sampleRef3 : Json := .obj [("a", .num 1), ("b", .obj [("c", .num 2)])]

/-- Target document of sample scenario 3: `{"a": 1, "b": {"d": 3}}`. -/
def sampleTgt3 : Json := .obj [("a", .num 1), ("b", .obj [("d", .num 3)])]

/-! ### The claims -/

/-- Claim C1: on a pair of mapping nodes, `align_json` builds the new mapping
by first inserting, for each reference key (in reference order) present in
the target, the recursive alignment of the two subtrees, and then appending,
for each target key (in target order) not already inserted, the target's
value verbatim. -/
theorem claim_C1 (ts gs : List (String × Json))
    (hts : (getKeys ts).Nodup) (hgs : (getKeys gs).Nodup) :
    align_json (.obj ts) (.obj gs) =
      .obj (alignSharedSpec ts gs ++ alignExtraSpec ts gs) :=
  align_obj_spec hts hgs

/-- Witness for C1, on the mapping nodes of sample scenario 1. -/
theorem claim_C1_witness :
    (getKeys [("a", Json.obj [("b", Json.num 1), ("c", Json.num 2)])]).Nodup ∧
    (getKeys [("a", Json.obj [("c", Json.num 99), ("d", Json.num 4)])]).Nodup ∧
    align_json (.obj [("a", Json.obj [("b", Json.num 1), ("c", Json.num 2)])])
        (.obj [("a", Json.obj [("c", Json.num 99), ("d", Json.num 4)])]) =
      .obj (alignSharedSpec
              [("a", Json.obj [("b", Json.num 1), ("c", Json.num 2)])]
              [("a", Json.obj [("c", Json.num 99), ("d", Json.num 4)])] ++
            alignExtraSpec
              [("a", Json.obj [("b", Json.num 1), ("c", Json.num 2)])]
              [("a", Json.obj [("c", Json.num 99), ("d", Json.num 4)])]) :=
  ⟨by decide, by decide, claim_C1 _ _ (by decide) (by decide)⟩

/-- Claim C2: a string is in `get_paths` of a document under the empty
initial prefix exactly when it is the dotted path of some key of some
mapping node reachable by descending through mappings only (`HasPath`);
non-mapping values contribute no paths from their content. -/
theorem claim_C2 (d : Json) (p : String) :
    p ∈ get_paths d "" ↔ HasPath d "" p :=
  mem_get_paths_iff

/-- Claim C3: the diff routine returns exactly the two set differences of
the path sets, as sorted sequences; on sample scenario 3 it reports
`missing = ["b.c"]` and `extra = ["b.d"]`, with `"b"` in neither list. -/
theorem claim_C3 :
    (∀ en fr : Finset String,
      (missing_in_fr en fr).toFinset = en \ fr ∧
      (extra_in_fr en fr).toFinset = fr \ en ∧
      (missing_in_fr en fr).Sorted (· ≤ ·) ∧
      (extra_in_fr en fr).Sorted (· ≤ ·)) ∧
    missing_in_fr (get_paths sampleRef3 "") (get_paths sampleTgt3 "") =
      ["b.c"] ∧
    extra_in_fr (get_paths sampleRef3 "") (get_paths sampleTgt3 "") =
      ["b.d"] ∧
    "b" ∉ missing_in_fr (get_paths sampleRef3 "") (get_paths sampleTgt3 "") ∧
    "b" ∉ extra_in_fr (get_paths sampleRef3 "") (get_paths sampleTgt3 "") := by
  have hm : missing_in_fr (get_paths sampleRef3 "") (get_paths sampleTgt3 "") =
      ["b.c"] := by
    have h : (get_paths sampleRef3 "" \ get_paths sampleTgt3 "") = {"b.c"} := by
      simp [sampleRef3, sampleTgt3, get_paths, pathsList, joinPath]
      decide
    rw [missing_in_fr, h, Finset.sort_singleton]
  have he : extra_in_fr (get_paths sampleRef3 "") (get_paths sampleTgt3 "") =
      ["b.d"] := by
    have h : (get_paths sampleTgt3 "" \ get_paths sampleRef3 "") = {"b.d"} := by
      simp [sampleRef3, sampleTgt3, get_paths, pathsList, joinPath]
      decide
    rw [extra_in_fr, h, Finset.sort_singleton]
  refine ⟨fun en fr =>
    ⟨Finset.sort_toFinset _ _, Finset.sort_toFinset _ _,
      Finset.sort_sorted _ _, Finset.sort_sorted _ _⟩, hm, he, ?_, ?_⟩
  · rw [hm]
    decide
  · rw [he]
    decide

/-- Claim C4: for well-formed documents the dotted key paths of
`align_json reference target` are exactly those of `target`: no target key
is lost and no reference-only key survives. -/
theorem claim_C4 (r t : Json) (hr : wf r = true) (ht : wf t = true) :
    get_paths (align_json r t) "" = get_paths t "" :=
  get_paths_align hr ht ""

/-- Witness for C4, on the documents of sample scenario 1. -/
theorem claim_C4_witness :
    wf sampleRef1 = true ∧ wf sampleTgt1 = true ∧
    get_paths (align_json sampleRef1 sampleTgt1) "" =
      get_paths sampleTgt1 "" :=
  ⟨by simp [sampleRef1, wf, wfList, getKeys],
    by simp [sampleTgt1, wf, wfList, getKeys],
    claim_C4 _ _ (by simp [sampleRef1, wf, wfList, getKeys])
      (by simp [sampleTgt1, wf, wfList, getKeys])⟩

/-- Claim C5: whenever either side is not a mapping node (leaf on either
side, or a type mismatch, lists included), `align_json` returns the target
verbatim. -/
theorem claim_C5 (r t : Json) (h : isObj r = false ∨ isObj t = false) :
    align_json r t = t :=
  align_not_obj r t h

/-- Witness for C5: the type mismatch of sample scenario 2 under key `x`
(reference `1`, target `{"y": 2}`). -/
theorem claim_C5_witness :
    (isObj (Json.num 1) = false ∨
      isObj (Json.obj [("y", Json.num 2)]) = false) ∧
    align_json (Json.num 1) (Json.obj [("y", Json.num 2)]) =
      Json.obj [("y", Json.num 2)] :=
  ⟨Or.inl rfl, claim_C5 _ _ (Or.inl rfl)⟩

/-- Claim C6: aligning a well-formed document with itself is the identity,
key order included. -/
theorem claim_C6 (d : Json) (hd : wf d = true) : align_json d d = d :=
  align_self hd

/-- Witness for C6, on the reference document of sample scenario 1. -/
theorem claim_C6_witness :
    wf sampleRef1 = true ∧ align_json sampleRef1 sampleRef1 = sampleRef1 :=
  ⟨by simp [sampleRef1, wf, wfList, getKeys],
    claim_C6 _ (by simp [sampleRef1, wf, wfList, getKeys])⟩

/-- Claim C7: for any two documents, the missing and extra path lists are
disjoint, and their union together with the intersection of the two
path-sets is the union of the two path-sets. -/
theorem claim_C7 (d1 d2 : Json) :
    Disjoint
      (missing_in_fr (get_paths d1 "") (get_paths d2 "")).toFinset
      (extra_in_fr (get_paths d1 "") (get_paths d2 "")).toFinset ∧
    (missing_in_fr (get_paths d1 "") (get_paths d2 "")).toFinset ∪
        (extra_in_fr (get_paths d1 "") (get_paths d2 "")).toFinset ∪
        (get_paths d1 "" ∩ get_paths d2 "") =
      get_paths d1 "" ∪ get_paths d2 "" := by
  rw [missing_in_fr, extra_in_fr, Finset.sort_toFinset, Finset.sort_toFinset]
  constructor
  · exact disjoint_sdiff_sdiff
  · apply Finset.ext
    intro p
    simp only [Finset.mem_union, Finset.mem_inter, Finset.mem_sdiff]
    tauto

/-- Claim C8: the intersection of the two documents' path sets is the
shared-key portion of the aligned output's path set, i.e. the aligned
output's paths that also occur in the reference. -/
theorem claim_C8 (r t : Json) (hr : wf r = true) (ht : wf t = true) :
    get_paths r "" ∩ get_paths t "" =
      get_paths (align_json r t) "" ∩ get_paths r "" := by
  rw [get_paths_align hr ht]
  exact Finset.inter_comm _ _

/-- Witness for C8, on the documents of sample scenario 1. -/
theorem claim_C8_witness :
    wf sampleRef1 = true ∧ wf sampleTgt1 = true ∧
    get_paths sampleRef1 "" ∩ get_paths sampleTgt1 "" =
      get_paths (align_json sampleRef1 sampleTgt1) "" ∩
        get_paths sampleRef1 "" :=
  ⟨by simp [sampleRef1, wf, wfList, getKeys],
    by simp [sampleTgt1, wf, wfList, getKeys],
    claim_C8 _ _ (by simp [sampleRef1, wf, wfList, getKeys])
      (by simp [sampleTgt1, wf, wfList, getKeys])⟩

/-- Claim C9: `align_json` is total on all JSON-shaped inputs — the
recursion terminates within an explicit budget (`alignFuel` returns its
value), and the model of Python's fallible `target[key]` indexing
(`alignE`) never raises an error. -/
theorem claim_C9 (r t : Json) :
    (∃ n : Nat, alignFuel n r t = some (align_json r t)) ∧
      alignE r t = .ok (align_json r t) :=
  ⟨⟨sizeOf r + 1, alignFuel_adequate _ _ _ (by omega)⟩,
    alignE_adequate_aux (sizeOf r + 1) r t (by omega)⟩

/-- Claim C10: with the reference fixed, the aligner is idempotent on its
own output, key order included. -/
theorem claim_C10 (r t : Json) (hr : wf r = true) (ht : wf t = true) :
    align_json r (align_json r t) = align_json r t :=
  align_idem hr ht

/-- Witness for C10, on the documents of sample scenario 1. -/
theorem claim_C10_witness :
    wf sampleRef1 = true ∧ wf sampleTgt1 = true ∧
    align_json sampleRef1 (align_json sampleRef1 sampleTgt1) =
      align_json sampleRef1 sampleTgt1 :=
  ⟨by simp [sampleRef1, wf, wfList, getKeys],
    by simp [sampleTgt1, wf, wfList, getKeys],
    claim_C10 _ _ (by simp [sampleRef1, wf, wfList, getKeys])
      (by simp [sampleTgt1, wf, wfList, getKeys])⟩

end Ephemera
